import Mathlib

/-!
# Verification of `ree-pak-rs` core behaviours

A shallow embedding of the parts of the `ree-pak-core` crate that the
specification talks about, together with theorems settling the spec's claims.

Conventions:
* Machine integers are modelled as `Nat` with explicit `% 2^w` where overflow
  matters (`w32` below wraps at 32 bits, bytes are `Nat`s `< 256`).
* Byte strings and UTF-16 unit strings are `List Nat`.
* Fallible Rust code returns `Except`/`Option`; a Rust panic is modelled as a
  dedicated `Outcome.panic` value (or `Option.none`) distinct from structured
  errors.
-/

set_option maxRecDepth 100000

namespace ReePak

/-- Wrap a natural number to 32 bits (`u32` arithmetic). -/
def w32 (n : Nat) : Nat := n % 4294967296

/-- `u32::rotate_left` for `x < 2^32`. -/
def rotl32 (x r : Nat) : Nat := w32 ((x <<< r) ||| (x >>> (32 - r)))

/-- Assemble a little-endian byte list into a natural number
(`u32::from_le_bytes` / bigint little-endian). -/
def fromLEBytes (l : List Nat) : Nat := l.foldr (fun b acc => b + 256 * acc) 0

/-- One 4-byte block step of MurmurHash3 x86/32, as performed by the
`murmur3` crate's `murmur3_32` for every full 4-byte group. -/
def murmurStep (h k : Nat) : Nat :=
  let k := w32 (k * 0xcc9e2d51)
  let k := rotl32 k 15
  let k := w32 (k * 0x1b873593)
  let h := h ^^^ k
  let h := rotl32 h 13
  w32 (h * 5 + 0xe6546b64)

/-- Tail step of MurmurHash3 x86/32 for the final 1–3 leftover bytes. -/
def murmurTailStep (h : Nat) (tail : List Nat) : Nat :=
  let k := fromLEBytes tail
  let k := w32 (k * 0xcc9e2d51)
  let k := rotl32 k 15
  let k := w32 (k * 0x1b873593)
  h ^^^ k

/-- Body loop of MurmurHash3 x86/32: consume 4-byte blocks, then the tail. -/
def murmur3Go (h : Nat) : List Nat → Nat
  | b0 :: b1 :: b2 :: b3 :: rest =>
      murmur3Go (murmurStep h (b0 + 256 * b1 + 65536 * b2 + 16777216 * b3)) rest
  | [] => h
  | tail => murmurTailStep h tail

/-- Finalization mix of MurmurHash3 x86/32. -/
def fmix32 (h : Nat) : Nat :=
  let h := h ^^^ (h >>> 16)
  let h := w32 (h * 0x85ebca6b)
  let h := h ^^^ (h >>> 13)
  let h := w32 (h * 0xc2b2ae35)
  h ^^^ (h >>> 16)

/-- MurmurHash3 x86/32 of a byte string with the given seed.  Models the
external `murmur3` crate's `murmur3_32(reader, seed)` applied to the full
byte stream produced by the reader (the crate is a dependency of this
repository; the repository calls it through `murmur3_hash`, always with
seed `0xFFFFFFFF`). -/
def murmur3_32 (bytes : List Nat) (seed : Nat) : Nat :=
  fmix32 (murmur3Go (w32 seed) bytes ^^^ w32 bytes.length)

/-! ## `utf16_hash.rs`: ASCII-optimised UTF-16 hashing -/

/-- Case conversion of one UTF-16 unit as performed inside
`Utf16CaseReader::read`: only ASCII letters are converted, every other unit
(including all units `> 127`) passes through unchanged. -/
def utf16ConvertUnit (uppercase : Bool) (u : Nat) : Nat :=
  if u ≤ 127 then
    if uppercase then
      if 97 ≤ u ∧ u ≤ 122 then u - 32 else u
    else
      if 65 ≤ u ∧ u ≤ 90 then u + 32 else u
  else u

/-- The complete byte stream produced by reading a `Utf16CaseReader` over
`data` to end-of-stream: each unit is case-converted and emitted as its two
little-endian bytes (low byte first). -/
def utf16CaseReaderBytes (uppercase : Bool) (data : List Nat) : List Nat :=
  (data.map (utf16ConvertUnit uppercase)).flatMap (fun u => [u % 256, (u / 256) % 256])

/-- `Utf16HashExt::hash_lower_case` for a `Utf16LeString` (a list of UTF-16
units): murmur3 over the lowercase-converted little-endian byte stream. -/
def hash_lower_case (units : List Nat) : Nat :=
  murmur3_32 (utf16CaseReaderBytes false units) 0xFFFFFFFF

/-- `Utf16HashExt::hash_upper_case` for a `Utf16LeString`. -/
def hash_upper_case (units : List Nat) : Nat :=
  murmur3_32 (utf16CaseReaderBytes true units) 0xFFFFFFFF

/-- `Utf16HashExt::hash_mixed`: `(upper << 32) | lower`. -/
def hash_mixed (units : List Nat) : Nat :=
  (hash_upper_case units <<< 32) ||| hash_lower_case units

/-- UTF-16 units of a Lean string literal (exact for all BMP characters; used
only for concrete ASCII test vectors). -/
def strUtf16 (s : String) : List Nat := s.toList.map Char.toNat

/-- Two UTF-16 units are related when they are equal or are the same ASCII
letter in the two cases (`A..Z` = 65..90 versus `a..z` = 97..122). -/
def asciiCaseRelUnit (a b : Nat) : Prop :=
  a = b ∨ (65 ≤ a ∧ a ≤ 90 ∧ b = a + 32) ∨ (97 ≤ a ∧ a ≤ 122 ∧ a = b + 32)

theorem utf16ConvertUnit_congr (up : Bool) {a b : Nat} (h : asciiCaseRelUnit a b) :
    utf16ConvertUnit up a = utf16ConvertUnit up b := by
  rcases h with rfl | ⟨h1, h2, rfl⟩ | ⟨h1, h2, h3⟩ <;>
    · unfold utf16ConvertUnit
      cases up <;> split_ifs <;> omega

theorem utf16CaseReaderBytes_congr (up : Bool) {s s' : List Nat}
    (h : List.Forall₂ asciiCaseRelUnit s s') :
    utf16CaseReaderBytes up s = utf16CaseReaderBytes up s' := by
  unfold utf16CaseReaderBytes
  induction h with
  | nil => rfl
  | cons hab _ ih =>
      simp only [List.map_cons, List.flatMap_cons] at *
      rw [utf16ConvertUnit_congr up hab, ih]

/-- C1: for every UTF-16 string `s` and every `s'` obtained from `s` by
changing only the ASCII letter case of its characters, the mixed 64-bit hash
and both 32-bit case hashes agree on `s` and `s'`. -/
theorem c1_hash_ascii_case_insensitive (s s' : List Nat)
    (h : List.Forall₂ asciiCaseRelUnit s s') :
    hash_mixed s = hash_mixed s' ∧
      hash_lower_case s = hash_lower_case s' ∧
      hash_upper_case s = hash_upper_case s' := by
  have hl : hash_lower_case s = hash_lower_case s' := by
    unfold hash_lower_case; rw [utf16CaseReaderBytes_congr false h]
  have hu : hash_upper_case s = hash_upper_case s' := by
    unfold hash_upper_case; rw [utf16CaseReaderBytes_congr true h]
  refine ⟨?_, hl, hu⟩
  unfold hash_mixed; rw [hl, hu]

/-- Witness for C1 at the concrete strings `"Ab"` and `"aB"`. -/
theorem c1_hash_ascii_case_insensitive_witness :
    hash_mixed [65, 98] = hash_mixed [97, 66] ∧
      hash_lower_case [65, 98] = hash_lower_case [97, 66] ∧
      hash_upper_case [65, 98] = hash_upper_case [97, 66] :=
  c1_hash_ascii_case_insensitive [65, 98] [97, 66]
    (List.Forall₂.cons (Or.inr (Or.inl (by omega)))
      (List.Forall₂.cons (Or.inr (Or.inr (by omega))) List.Forall₂.nil))

/-- Sanity check against the known test vector shipped with the repository:
`hash_mixed("natives/stm/camera/collisionfilter/defaultcamera.cfil.7")
 = 0x958EDD0C65B486A1`. -/
theorem hash_known_vector :
    hash_mixed (strUtf16 "natives/stm/camera/collisionfilter/defaultcamera.cfil.7") =
      0x958EDD0C65B486A1 := by decide

/-! ## `pak/header.rs` and `pak/flag.rs`: header validation -/

/-- `spec::Header`: the raw 16-byte header as parsed fields (`magic` is the
4-byte list; `feature` is the raw `u16`). -/
structure SpecHeader where
  magic : List Nat
  majorVersion : Nat
  minorVersion : Nat
  feature : Nat
  totalFiles : Nat
  hash : Nat
deriving DecidableEq

/-- `HEADER_MAGIC = b"KPKA"`. -/
def HEADER_MAGIC : List Nat := [0x4B, 0x50, 0x4B, 0x41]

/-- The errors of `PakError` relevant to header parsing. -/
inductive PakHeaderError where
  | invalidMagic (expected found : List Nat)
  | unsupportedVersion (major minor : Nat)
  | unsupportedFeature (feature : Nat)
deriving DecidableEq

/-- The validated `PakHeader`. -/
structure PakHeader where
  magic : List Nat
  majorVersion : Nat
  minorVersion : Nat
  feature : Nat
  totalFiles : Nat
  hash : Nat
  unkU32Sig : Nat
deriving DecidableEq

/-- `FeatureFlags::ENTRY_ENCRYPTION | FeatureFlags::EXTRA_U32 | FeatureFlags::UNK_1`
(bits 3, 4 and 5; bit 5 is the chunk-table flag used by `PakFile::open_with_backend`). -/
def supportedFlags : Nat := (1 <<< 3) ||| (1 <<< 4) ||| (1 <<< 5)

/-- `FeatureFlags::check_supported`: `self.bits() & !supported == 0` in `u16`
arithmetic (`!supported` is the 16-bit complement `supported ^^^ 0xFFFF`). -/
def check_supported (bits : Nat) : Bool := bits &&& (supportedFlags ^^^ 65535) == 0

/-- `FeatureFlags::from_bits_truncate` on a `u16`: all 16 bits are declared in
the bitflags, so the mask keeps exactly the low 16 bits. -/
def featureFromBitsTruncate (v : Nat) : Nat := v % 65536

/-- `impl TryFrom<spec::Header> for PakHeader` (`feature` below stands for the
truncated flags `FeatureFlags::from_bits_truncate(this.feature)`). -/
def pakHeaderTryFrom (h : SpecHeader) : Except PakHeaderError PakHeader :=
  if h.magic ≠ HEADER_MAGIC then
    .error (.invalidMagic HEADER_MAGIC h.magic)
  else if ¬(h.majorVersion = 2 ∨ h.majorVersion = 4) ∨
      ¬(h.minorVersion = 0 ∨ h.minorVersion = 1) then
    .error (.unsupportedVersion h.majorVersion h.minorVersion)
  else if ¬ check_supported (featureFromBitsTruncate h.feature) then
    .error (.unsupportedFeature (featureFromBitsTruncate h.feature))
  else
    .ok { magic := h.magic, majorVersion := h.majorVersion,
          minorVersion := h.minorVersion, feature := featureFromBitsTruncate h.feature,
          totalFiles := h.totalFiles, hash := h.hash, unkU32Sig := 0 }

theorem featureFromBitsTruncate_eq {v : Nat} (hv : v < 65536) :
    featureFromBitsTruncate v = v := Nat.mod_eq_of_lt hv

theorem check_supported_iff {v : Nat} :
    check_supported v = true ↔ v &&& 65479 = 0 := by
  have hmask : supportedFlags ^^^ 65535 = 65479 := by decide
  unfold check_supported
  rw [hmask]
  exact beq_iff_eq

theorem pakHeaderTryFrom_invalidMagic {h : SpecHeader} (hm : h.magic ≠ HEADER_MAGIC) :
    pakHeaderTryFrom h = .error (.invalidMagic HEADER_MAGIC h.magic) := by
  unfold pakHeaderTryFrom
  rw [if_pos hm]

theorem pakHeaderTryFrom_unsupportedVersion {h : SpecHeader}
    (hm : h.magic = HEADER_MAGIC)
    (hv : ¬((h.majorVersion = 2 ∨ h.majorVersion = 4) ∧
        (h.minorVersion = 0 ∨ h.minorVersion = 1))) :
    pakHeaderTryFrom h = .error (.unsupportedVersion h.majorVersion h.minorVersion) := by
  unfold pakHeaderTryFrom
  rw [if_neg (not_not_intro hm), if_pos (by tauto)]

theorem pakHeaderTryFrom_unsupportedFeature {h : SpecHeader}
    (hf : h.feature < 65536) (hm : h.magic = HEADER_MAGIC)
    (hmaj : h.majorVersion = 2 ∨ h.majorVersion = 4)
    (hmin : h.minorVersion = 0 ∨ h.minorVersion = 1)
    (hfe : h.feature &&& 65479 ≠ 0) :
    pakHeaderTryFrom h = .error (.unsupportedFeature h.feature) := by
  unfold pakHeaderTryFrom
  rw [if_neg (not_not_intro hm), if_neg (by tauto), featureFromBitsTruncate_eq hf,
    if_pos (fun hc => hfe (check_supported_iff.mp hc))]

theorem pakHeaderTryFrom_ok {h : SpecHeader}
    (hf : h.feature < 65536) (hm : h.magic = HEADER_MAGIC)
    (hmaj : h.majorVersion = 2 ∨ h.majorVersion = 4)
    (hmin : h.minorVersion = 0 ∨ h.minorVersion = 1)
    (hfe : h.feature &&& 65479 = 0) :
    pakHeaderTryFrom h =
      .ok { magic := h.magic, majorVersion := h.majorVersion,
            minorVersion := h.minorVersion, feature := h.feature,
            totalFiles := h.totalFiles, hash := h.hash, unkU32Sig := 0 } := by
  unfold pakHeaderTryFrom
  rw [if_neg (not_not_intro hm), if_neg (by tauto), featureFromBitsTruncate_eq hf,
    if_neg (not_not_intro (check_supported_iff.mpr hfe))]

/-- C3: header parsing succeeds exactly for magic `"KPKA"`, major 2 or 4,
minor 0 or 1, feature bits within the supported set {3,4,5}; and each failure
produces the corresponding structured error carrying the offending values. -/
theorem c3_header_parse (h : SpecHeader) (hf : h.feature < 65536) :
    ((pakHeaderTryFrom h).isOk = true ↔
      (h.magic = HEADER_MAGIC ∧ (h.majorVersion = 2 ∨ h.majorVersion = 4) ∧
        (h.minorVersion = 0 ∨ h.minorVersion = 1) ∧ h.feature &&& 65479 = 0))
    ∧ (h.magic ≠ HEADER_MAGIC →
        pakHeaderTryFrom h = .error (.invalidMagic HEADER_MAGIC h.magic))
    ∧ (h.magic = HEADER_MAGIC →
        ¬((h.majorVersion = 2 ∨ h.majorVersion = 4) ∧
          (h.minorVersion = 0 ∨ h.minorVersion = 1)) →
        pakHeaderTryFrom h = .error (.unsupportedVersion h.majorVersion h.minorVersion))
    ∧ (h.magic = HEADER_MAGIC → (h.majorVersion = 2 ∨ h.majorVersion = 4) →
        (h.minorVersion = 0 ∨ h.minorVersion = 1) → h.feature &&& 65479 ≠ 0 →
        pakHeaderTryFrom h = .error (.unsupportedFeature h.feature)) := by
  refine ⟨?_, fun hm => pakHeaderTryFrom_invalidMagic hm,
    fun hm hv => pakHeaderTryFrom_unsupportedVersion hm hv,
    fun hm hmaj hmin hfe => pakHeaderTryFrom_unsupportedFeature hf hm hmaj hmin hfe⟩
  constructor
  · intro hok
    by_cases hm : h.magic = HEADER_MAGIC
    · by_cases hv : (h.majorVersion = 2 ∨ h.majorVersion = 4) ∧
          (h.minorVersion = 0 ∨ h.minorVersion = 1)
      · by_cases hfe : h.feature &&& 65479 = 0
        · exact ⟨hm, hv.1, hv.2, hfe⟩
        · rw [pakHeaderTryFrom_unsupportedFeature hf hm hv.1 hv.2 hfe] at hok
          cases hok
      · rw [pakHeaderTryFrom_unsupportedVersion hm hv] at hok
        cases hok
    · rw [pakHeaderTryFrom_invalidMagic hm] at hok
      cases hok
  · intro ⟨hm, hmaj, hmin, hfe⟩
    rw [pakHeaderTryFrom_ok hf hm hmaj hmin hfe]
    rfl

/-- Witness for C3 at the concrete header `("KPKA", 4, 0, feature 8)`. -/
theorem c3_header_parse_witness :
    (8 : Nat) < 65536 ∧
      ((pakHeaderTryFrom ⟨HEADER_MAGIC, 4, 0, 8, 3, 0⟩).isOk = true ↔
        (HEADER_MAGIC = HEADER_MAGIC ∧ ((4 : Nat) = 2 ∨ (4 : Nat) = 4) ∧
          ((0 : Nat) = 0 ∨ (0 : Nat) = 1) ∧ (8 : Nat) &&& 65479 = 0)) :=
  ⟨by decide, (c3_header_parse ⟨HEADER_MAGIC, 4, 0, 8, 3, 0⟩ (by decide)).1⟩

/-! ## `pak/cipher/pak.rs`: entry-table decryption -/

/-- The 129-byte little-endian RSA-style modulus constant `MODULUS`. -/
def PAK_MODULUS_BYTES : List Nat := [
  0x7D, 0x0B, 0xF8, 0xC1, 0x7C, 0x23, 0xFD, 0x3B, 0xD4, 0x75, 0x16, 0xD2, 0x33, 0x21, 0xD8, 0x10, 0x71, 0xF9, 0x7C,
  0xD1, 0x34, 0x93, 0xBA, 0x77, 0x26, 0xFC, 0xAB, 0x2C, 0xEE, 0xDA, 0xD9, 0x1C, 0x89, 0xE7, 0x29, 0x7B, 0xDD, 0x8A,
  0xAE, 0x50, 0x39, 0xB6, 0x01, 0x6D, 0x21, 0x89, 0x5D, 0xA5, 0xA1, 0x3E, 0xA2, 0xC0, 0x8C, 0x93, 0x13, 0x36, 0x65,
  0xEB, 0xE8, 0xDF, 0x06, 0x17, 0x67, 0x96, 0x06, 0x2B, 0xAC, 0x23, 0xED, 0x8C, 0xB7, 0x8B, 0x90, 0xAD, 0xEA, 0x71,
  0xC4, 0x40, 0x44, 0x9D, 0x1C, 0x7B, 0xBA, 0xC4, 0xB6, 0x2D, 0xD6, 0xD2, 0x4B, 0x62, 0xD6, 0x26, 0xFC, 0x74, 0x20,
  0x07, 0xEC, 0xE3, 0x59, 0x9A, 0xE6, 0xAF, 0xB9, 0xA8, 0x35, 0x8B, 0xE0, 0xE8, 0xD3, 0xCD, 0x45, 0x65, 0xB0, 0x91,
  0xC4, 0x95, 0x1B, 0xF3, 0x23, 0x1E, 0xC6, 0x71, 0xCF, 0x3E, 0x35, 0x2D, 0x6B, 0xE3, 0x00]

/-- `MODULUS` as a little-endian big integer. -/
def PAK_MODULUS : Nat := fromLEBytes PAK_MODULUS_BYTES

/-- `EXPONENT = [0x01, 0x00, 0x01, 0x00]` little-endian, i.e. 65537. -/
def PAK_EXPONENT : Nat := fromLEBytes [0x01, 0x00, 0x01, 0x00]

/-- `resize_key`: `Vec::resize(129, 0)` (truncate to or pad with zeros up to
129 bytes). -/
def resize_key (key : List Nat) : List Nat :=
  key.take 129 ++ List.replicate (129 - key.length) 0

/-- `num::BigUint::to_bytes_le`: minimal little-endian bytes, `[0]` for zero. -/
def toBytesLE (n : Nat) : List Nat := if n = 0 then [0] else Nat.digits 256 n

/-- `decrypt_key`: unwrap the encrypted key with `modpow` and serialize the
result back to little-endian bytes. -/
def decrypt_key (encKey : List Nat) : List Nat :=
  toBytesLE (fromLEBytes (resize_key encKey) ^ PAK_EXPONENT % PAK_MODULUS)

/-- `decrypt_pak_data`: XOR each data byte with the position-dependent
keystream `(i + key[i % 32] * key[i % 29]) mod 256`.  The Rust indexing
`key[i % 32]` / `key[i % 29]` panics when the unwrapped key is too short;
the panic is modelled as `none`. -/
def decrypt_pak_data (data encKey : List Nat) : Option (List Nat) :=
  if ∀ i ∈ List.range data.length,
      i % 32 < (decrypt_key encKey).length ∧ i % 29 < (decrypt_key encKey).length then
    some ((List.range data.length).map fun i =>
      data.getD i 0 ^^^
        ((i + (decrypt_key encKey).getD (i % 32) 0 * (decrypt_key encKey).getD (i % 29) 0) % 256))
  else none

theorem decrypt_key_all_zero : decrypt_key (List.replicate 128 0) = [0] := by
  have h1 : resize_key (List.replicate 128 0) = List.replicate 129 0 := by
    unfold resize_key
    rw [List.take_replicate, List.length_replicate, ← List.replicate_add]
    norm_num
  have h2 : fromLEBytes (List.replicate 129 0) = 0 := by
    have hall : ∀ n : Nat, fromLEBytes (List.replicate n 0) = 0 := by
      intro n
      induction n with
      | zero => rfl
      | succ k ih => simpa [fromLEBytes, List.replicate_succ] using ih
    exact hall 129
  have h3 : PAK_EXPONENT = 65537 := by decide
  unfold decrypt_key
  rw [h1, h2, h3]
  norm_num [toBytesLE]

/-- C10 counterexample: with the all-zero 128-byte wrapped key the unwrapped
key is the single byte `[0]`, and decrypting a 2-byte payload panics instead
of round-tripping, so the involution fails as stated at this input. -/
theorem c10_counterexample :
    (List.replicate 128 0).length = 128 ∧
      (decrypt_pak_data [0, 0] (List.replicate 128 0)).bind
          (fun d => decrypt_pak_data d (List.replicate 128 0)) ≠ some [0, 0] := by
  refine ⟨by simp, ?_⟩
  have hnone : decrypt_pak_data [0, 0] (List.replicate 128 0) = none := by
    unfold decrypt_pak_data
    rw [decrypt_key_all_zero]
    rw [if_neg (by decide)]
  rw [hnone]
  intro hc
  cases hc

theorem range_map_getD {α : Type} (f : Nat → α) (n i : Nat) (d : α) (hi : i < n) :
    ((List.range n).map f).getD i d = f i := by
  rw [List.getD_eq_getElem?_getD, List.getElem?_map, List.getElem?_range hi]
  rfl

/-- C10 amended: the entry-table decryption is an involution in its data
argument whenever every keystream index `i % 32`, `i % 29` (for `i` below the
data length) is within the unwrapped key; the keystream depends only on the
position and the unwrapped key. -/
theorem c10_decrypt_involution (data encKey : List Nat)
    (h : ∀ i ∈ List.range data.length,
        i % 32 < (decrypt_key encKey).length ∧ i % 29 < (decrypt_key encKey).length) :
    (decrypt_pak_data data encKey).bind (fun d => decrypt_pak_data d encKey) = some data := by
  unfold decrypt_pak_data
  rw [if_pos h]
  simp only [Option.some_bind]
  rw [if_pos (by simpa using h)]
  congr 1
  have hlen :
      ((List.range data.length).map fun i =>
        data.getD i 0 ^^^
          ((i + (decrypt_key encKey).getD (i % 32) 0 * (decrypt_key encKey).getD (i % 29) 0) % 256)).length
        = data.length := by simp
  apply List.ext_getElem
  · simp
  · intro i h1 h2
    simp only [List.getElem_map, List.getElem_range, hlen] at h1 ⊢
    rw [range_map_getD _ _ _ _ (by simpa [hlen] using h1)]
    have : ∀ a b : Nat, a ^^^ b ^^^ b = a := fun a b => Nat.xor_cancel_right b a
    rw [this]
    exact List.getD_eq_getElem data 0 h2

/-- Witness for C10 amended at `data = [5]`, all-zero wrapped key. -/
theorem c10_decrypt_involution_witness :
    (decrypt_pak_data [5] (List.replicate 128 0)).bind
        (fun d => decrypt_pak_data d (List.replicate 128 0)) = some [5] :=
  c10_decrypt_involution [5] (List.replicate 128 0)
    (by
      intro i hi
      rw [List.mem_range] at hi
      have hi0 : i = 0 := by simpa using hi
      subst hi0
      rw [decrypt_key_all_zero]
      exact ⟨by decide, by decide⟩)

/-! ## `filename.rs`: the filename table

Strings are modelled as lists of Unicode scalar values (`List Nat`); byte
strings as lists of bytes. -/

/-- `String::from_utf8`: validating UTF-8 decoding of a byte string into
scalar values (`none` on invalid UTF-8: stray continuation bytes, overlong
forms, surrogates, out-of-range lead bytes). -/
def utf8Decode : List Nat → Option (List Nat)
  | [] => some []
  | b :: rest =>
    if b < 0x80 then (utf8Decode rest).map (b :: ·)
    else if b < 0xC2 then none
    else if b < 0xE0 then
      match rest with
      | b1 :: rest2 =>
        if 0x80 ≤ b1 ∧ b1 < 0xC0 then
          (utf8Decode rest2).map (((b - 0xC0) * 64 + (b1 - 0x80)) :: ·)
        else none
      | [] => none
    else if b < 0xF0 then
      match rest with
      | b1 :: b2 :: rest3 =>
        if (0x80 ≤ b1 ∧ b1 < 0xC0) ∧ (0x80 ≤ b2 ∧ b2 < 0xC0) then
          if (b - 0xE0) * 4096 + (b1 - 0x80) * 64 + (b2 - 0x80) < 0x800 ∨
              (0xD800 ≤ (b - 0xE0) * 4096 + (b1 - 0x80) * 64 + (b2 - 0x80) ∧
                (b - 0xE0) * 4096 + (b1 - 0x80) * 64 + (b2 - 0x80) < 0xE000) then none
          else (utf8Decode rest3).map
            (((b - 0xE0) * 4096 + (b1 - 0x80) * 64 + (b2 - 0x80)) :: ·)
        else none
      | _ => none
    else if b < 0xF5 then
      match rest with
      | b1 :: b2 :: b3 :: rest4 =>
        if (0x80 ≤ b1 ∧ b1 < 0xC0) ∧ (0x80 ≤ b2 ∧ b2 < 0xC0) ∧ (0x80 ≤ b3 ∧ b3 < 0xC0) then
          if (b - 0xF0) * 262144 + (b1 - 0x80) * 4096 + (b2 - 0x80) * 64 + (b3 - 0x80) < 0x10000 ∨
              (b - 0xF0) * 262144 + (b1 - 0x80) * 4096 + (b2 - 0x80) * 64 + (b3 - 0x80) > 0x10FFFF then
            none
          else (utf8Decode rest4).map
            (((b - 0xF0) * 262144 + (b1 - 0x80) * 4096 + (b2 - 0x80) * 64 + (b3 - 0x80)) :: ·)
        else none
      | _ => none
    else none

/-- Split a character string at every newline (10); always returns at least
one (possibly empty) piece. -/
def splitNewline : List Nat → List (List Nat)
  | [] => [[]]
  | c :: rest =>
    if c = 10 then [] :: splitNewline rest
    else
      match splitNewline rest with
      | [] => [[c]]
      | l :: ls => (c :: l) :: ls

/-- Strip one trailing carriage return (13) from a newline-terminated line. -/
def stripTrailingCR (l : List Nat) : List Nat :=
  if l.getLast? = some 13 then l.dropLast else l

/-- `str::lines`: split at `\n`, strip a `\r` immediately preceding each
`\n`, and do not produce a final empty line for a trailing `\n`. -/
def rustLines (s : List Nat) : List (List Nat) :=
  let ps := splitNewline s
  let terminated := ps.dropLast.map stripTrailingCR
  let lastPiece := ps.getLast?.getD []
  if lastPiece = [] then terminated else terminated ++ [lastPiece]

/-- `char` case mapping used by `str::to_lowercase`, modelled on the ASCII
range (`A..Z` ↦ `a..z`); non-ASCII scalars are passed through (the full
Unicode tables of the Rust standard library are outside this embedding, and
every string occurring in the claims below is ASCII). -/
def asciiLowerChar (c : Nat) : Nat := if 65 ≤ c ∧ c ≤ 90 then c + 32 else c

/-- `char` case mapping used by `str::to_uppercase`, modelled on the ASCII
range (`a..z` ↦ `A..Z`); see `asciiLowerChar`. -/
def asciiUpperChar (c : Nat) : Nat := if 97 ≤ c ∧ c ≤ 122 then c - 32 else c

/-- `str::encode_utf16`: scalar values to UTF-16 code units (surrogate pairs
above the BMP). -/
def encodeUtf16 (s : List Nat) : List Nat :=
  s.flatMap fun c =>
    if c < 0x10000 then [c]
    else [0xD800 + (c - 0x10000) / 0x400, 0xDC00 + (c - 0x10000) % 0x400]

/-- `u16::to_le_bytes` flat-mapped over a unit string. -/
def utf16LeBytes (units : List Nat) : List Nat :=
  units.flatMap fun u => [u % 256, (u / 256) % 256]

/-- `FileNameFull::hash_lower_case` (filename.rs): murmur3 of the UTF-16LE
bytes of the lowercased name, seed `0xFFFFFFFF`. -/
def fileNameHashLower (name : List Nat) : Nat :=
  murmur3_32 (utf16LeBytes (encodeUtf16 (name.map asciiLowerChar))) 0xFFFFFFFF

/-- `FileNameFull::hash_upper_case` (filename.rs). -/
def fileNameHashUpper (name : List Nat) : Nat :=
  murmur3_32 (utf16LeBytes (encodeUtf16 (name.map asciiUpperChar))) 0xFFFFFFFF

/-- `FileNameExt::hash_mixed` for `FileNameFull`: `(upper << 32) | lower`. -/
def fileNameHashMixed (name : List Nat) : Nat :=
  (fileNameHashUpper name <<< 32) ||| fileNameHashLower name

/-- `line.replace('\\', "/")`. -/
def replaceBackslash (name : List Nat) : List Nat :=
  name.map fun c => if c = 92 then 47 else c

/-- The filename table: a map from 64-bit mixed hash to path string
(`HashMap<u64, FileNameFull>`; `insert` overwrites). -/
abbrev FileNameTable : Type := Nat → Option (List Nat)

/-- `FileNameTable::from_list`: for each line, replace `\` by `/`, hash, and
insert into the map (later insertions win). -/
def from_list (lines : List (List Nat)) : FileNameTable :=
  lines.foldl
    (fun t line =>
      Function.update t (fileNameHashMixed (replaceBackslash line))
        (some (replaceBackslash line)))
    (fun _ => none)

/-- Result of running a piece of Rust code: a panic, a structured error, or a
value. -/
inductive Outcome (ε α : Type) where
  | panic
  | fail (e : ε)
  | ok (a : α)
deriving DecidableEq

/-- The error kinds `FileNameTable` loading can surface. -/
inductive FileListError where
  | ioError
  | invalidFileList
deriving DecidableEq

/-- `FileNameTable::parse_raw_file_names`, parametrised by the external zstd
stream decoder (`zstd::Decoder` + `read_to_end`, `none` = IO/decode error).
The unconditional slice `bytes[0..4]` panics when the input is shorter than
4 bytes. -/
def parse_raw_file_names (zstdDecode : List Nat → Option (List Nat))
    (bytes : List Nat) : Outcome FileListError (List Nat) :=
  if bytes.length < 4 then .panic
  else if bytes.take 4 = [0x28, 0xB5, 0x2F, 0xFD] then
    match zstdDecode bytes with
    | none => .fail .ioError
    | some out =>
      match utf8Decode out with
      | none => .fail .invalidFileList
      | some s => .ok s
  else
    match utf8Decode bytes with
    | none => .fail .invalidFileList
    | some s => .ok s

/-- `line.starts_with('#')`. -/
def startsWithHashSign : List Nat → Bool
  | c :: _ => c == 35
  | [] => false

/-- `FileNameTable::from_bytes`: parse the raw text, drop `#`-comment lines,
and build the table from the remaining lines. -/
def from_bytes (zstdDecode : List Nat → Option (List Nat)) (bytes : List Nat) :
    Outcome FileListError FileNameTable :=
  match parse_raw_file_names zstdDecode bytes with
  | .panic => .panic
  | .fail e => .fail e
  | .ok s => .ok (from_list ((rustLines s).filter (fun l => !startsWithHashSign l)))

/-- C9: for every input shorter than 4 bytes (any zstd decoder), the
unconditional zstd-magic check slices out of bounds and `from_bytes`
panics instead of returning a table or a structured error. -/
theorem c9_from_bytes_short_input_panics
    (zstdDecode : List Nat → Option (List Nat)) (bytes : List Nat)
    (h : bytes.length < 4) : from_bytes zstdDecode bytes = .panic := by
  unfold from_bytes parse_raw_file_names
  rw [if_pos h]

/-- Witness for C9 at the empty input. -/
theorem c9_from_bytes_short_input_panics_witness :
    from_bytes (fun _ => none) [] = .panic :=
  c9_from_bytes_short_input_panics (fun _ => none) [] (by decide)

/-- C5 counterexample: the input text `"a\n\nb"` contains an empty line, and
`from_bytes` does **not** drop it: the resulting table has an entry whose
name is the empty string, contradicting "the table contains entries exactly
for the non-comment, non-empty lines". -/
theorem c5_counterexample :
    ¬ (∀ t : FileNameTable, from_bytes (fun _ => none) [97, 10, 10, 98] = .ok t →
        ∀ k name, t k = some name → name ≠ []) := by
  intro hclaim
  exact hclaim (from_list [[97], [], [98]]) rfl (fileNameHashMixed []) [] (by decide) rfl

theorem getLast?_cons_or {α : Type} (a : α) (l : List α) :
    (a :: l).getLast? =
      match l.getLast? with
      | some x => some x
      | none => some a := by
  induction l generalizing a with
  | nil => rfl
  | cons b bs ih =>
      rw [List.getLast?_cons_cons]
      cases hbs : (b :: bs).getLast? with
      | none => exact absurd (List.getLast?_eq_none_iff.mp hbs) (by simp)
      | some x => rfl

theorem from_list_fold_lookup (lines : List (List Nat)) (t0 : Nat → Option (List Nat)) (k : Nat) :
    (lines.foldl
        (fun t line =>
          Function.update t (fileNameHashMixed (replaceBackslash line))
            (some (replaceBackslash line)))
        t0) k =
      match ((lines.map replaceBackslash).filter
          (fun n => fileNameHashMixed n == k)).getLast? with
      | some n => some n
      | none => t0 k := by
  induction lines generalizing t0 with
  | nil => rfl
  | cons a as ih =>
      rw [List.foldl_cons, ih, List.map_cons, List.filter_cons]
      by_cases heq : fileNameHashMixed (replaceBackslash a) = k
      · rw [if_pos (by simpa using heq)]
        rw [getLast?_cons_or]
        cases hF : ((as.map replaceBackslash).filter
            (fun n => fileNameHashMixed n == k)).getLast? with
        | some n => rfl
        | none => simp [Function.update, heq]
      · rw [if_neg (by simpa using heq)]
        cases hF : ((as.map replaceBackslash).filter
            (fun n => fileNameHashMixed n == k)).getLast? with
        | some n => rfl
        | none => simp [Function.update, Ne.symm heq]

theorem from_list_lookup (lines : List (List Nat)) (k : Nat) :
    from_list lines k =
      ((lines.map replaceBackslash).filter
          (fun n => fileNameHashMixed n == k)).getLast? := by
  unfold from_list
  rw [from_list_fold_lookup]
  cases ((lines.map replaceBackslash).filter (fun n => fileNameHashMixed n == k)).getLast? <;> rfl

/-- C5 amended: loading a filename table from list text drops the
`#`-comment lines but keeps empty lines, replaces every `\` by `/`, and
inserts each processed line under its 64-bit mixed hash with last-write-wins:
for every input that parses, the table maps a key `k` exactly to the last
processed (non-comment, possibly empty) line whose hash is `k`. -/
theorem c5_from_bytes_table (zstdDecode : List Nat → Option (List Nat))
    (bytes s : List Nat)
    (hp : parse_raw_file_names zstdDecode bytes = .ok s)
    (t : FileNameTable) (ht : from_bytes zstdDecode bytes = .ok t) :
    ∀ k, t k =
      ((((rustLines s).filter (fun l => !startsWithHashSign l)).map replaceBackslash).filter
          (fun n => fileNameHashMixed n == k)).getLast? := by
  intro k
  unfold from_bytes at ht
  rw [hp] at ht
  cases ht
  exact from_list_lookup _ k

/-- Witness for C5 amended at the input `"a\n\nb"`, looked up at the hash of
the empty line. -/
theorem c5_from_bytes_table_witness :
    from_list [[97], [], [98]] (fileNameHashMixed []) =
      ((((rustLines [97, 10, 10, 98]).filter (fun l => !startsWithHashSign l)).map
            replaceBackslash).filter
          (fun n => fileNameHashMixed n == fileNameHashMixed [])).getLast? :=
  c5_from_bytes_table (fun _ => none) [97, 10, 10, 98] [97, 10, 10, 98] rfl
    (from_list [[97], [], [98]]) rfl (fileNameHashMixed [])

/-! ## `extract.rs` (`PakExtractBuilder::run`): planning output paths -/

/-- Value of one hexadecimal digit character (`'0'..'9'`, `'A'..'F'`). -/
def hexCharVal (c : Nat) : Nat := if 48 ≤ c ∧ c ≤ 57 then c - 48 else c - 55

/-- Uppercase hexadecimal digit character for a value `< 16`. -/
def hexDigitUpper (d : Nat) : Nat := if d < 10 then 48 + d else 55 + d

/-- Little-endian base-16 digit extraction with explicit fuel (16 digits
suffice for any `u64`). -/
def natHexDigitsAux : Nat → Nat → List Nat
  | 0, _ => []
  | _ + 1, 0 => []
  | fuel + 1, n => (n % 16) :: natHexDigitsAux fuel (n / 16)

/-- Big-endian hexadecimal digit values of a `u64` (a single `0` digit for
zero), as produced by Rust's `{:X}` formatting before padding. -/
def natHexDigits (n : Nat) : List Nat :=
  if n = 0 then [0] else (natHexDigitsAux 16 n).reverse

/-- Rust `format!("{:08X}", n)`: uppercase hexadecimal, zero-padded on the
left to a minimum width of 8 characters. -/
def rustFormatHexUpperMin8 (n : Nat) : List Nat :=
  let ds := (natHexDigits n).map hexDigitUpper
  List.replicate (8 - ds.length) 48 ++ ds

/-- Value of a big-endian string of hex digit characters. -/
def decodeHexUpper (chars : List Nat) : Nat :=
  chars.foldl (fun acc c => acc * 16 + hexCharVal c) 0

/-- Value of a little-endian digit list in base 16. -/
def ofDigitsLE (ds : List Nat) : Nat := ds.foldr (fun d acc => d + 16 * acc) 0

/-- The relative output path planned by `PakExtractBuilder::run` for one
entry when a filename table is configured: the known name when the hash is
in the table, otherwise (with `skip_unknown = false`)
`_Unknown/` followed by `format!("{:08X}", hash)`; with
`skip_unknown = true` an unknown entry is skipped (`none`). -/
def resolveRelPath (table : FileNameTable) (skipUnknown : Bool) (hash : Nat) :
    Option (List Nat) :=
  match table hash with
  | some name => some name
  | none =>
    if skipUnknown then none
    else some (strUtf16 "_Unknown/" ++ rustFormatHexUpperMin8 hash)

/-- Modelled from the spec's words (`_Unknown/<16-hex-of-hash>`), for the
refinement comparison only: the unknown-entry path with the hash rendered as
exactly 16 hex digits. -/
def specUnknownRelPath16 (hash : Nat) : List Nat :=
  strUtf16 "_Unknown/" ++
    (List.replicate (16 - ((natHexDigits hash).map hexDigitUpper).length) 48 ++
      (natHexDigits hash).map hexDigitUpper)

/-- C6 counterexample: for the unknown hash 1 the extractor plans
`_Unknown/00000001` (8 hex digits, from `{:08X}`), not the 16-hex-digit
`_Unknown/0000000000000001` the claim states. -/
theorem c6_counterexample :
    (fun _ => none : FileNameTable) 1 = none ∧
      resolveRelPath (fun _ => none) false 1 ≠ some (specUnknownRelPath16 1) :=
  ⟨rfl, by decide⟩

theorem natHexDigitsAux_lt (fuel n : Nat) : ∀ d ∈ natHexDigitsAux fuel n, d < 16 := by
  induction fuel generalizing n with
  | zero => intro d hd; cases hd
  | succ k ih =>
      intro d hd
      cases n with
      | zero => cases hd
      | succ m =>
          simp only [natHexDigitsAux] at hd
          rcases List.mem_cons.mp hd with rfl | hmem
          · exact Nat.mod_lt _ (by omega)
          · exact ih _ d hmem

theorem ofDigitsLE_natHexDigitsAux (fuel n : Nat) (h : n < 16 ^ fuel) :
    ofDigitsLE (natHexDigitsAux fuel n) = n := by
  induction fuel generalizing n with
  | zero => simp at h; simp [h, natHexDigitsAux, ofDigitsLE]
  | succ k ih =>
      cases n with
      | zero => rfl
      | succ m =>
          simp only [natHexDigitsAux]
          unfold ofDigitsLE at ih ⊢
          rw [List.foldr_cons, ih ((m + 1) / 16) ?_]
          · exact Nat.mod_add_div (m + 1) 16
          · have h16 : (16 : Nat) ^ (k + 1) = 16 * 16 ^ k := by ring
            rw [h16] at h
            exact Nat.div_lt_of_lt_mul h

theorem hexCharVal_hexDigitUpper {d : Nat} (hd : d < 16) :
    hexCharVal (hexDigitUpper d) = d := by
  unfold hexCharVal hexDigitUpper
  split_ifs <;> omega

theorem decodeHexUpper_replicate_zero (k : Nat) (l : List Nat) :
    decodeHexUpper (List.replicate k 48 ++ l) = decodeHexUpper l := by
  unfold decodeHexUpper
  rw [List.foldl_append]
  congr 1
  induction k with
  | zero => rfl
  | succ m ih => rw [List.replicate_succ, List.foldl_cons]; simpa [hexCharVal] using ih

theorem decodeHexUpper_reverse_map (ds : List Nat) (h : ∀ d ∈ ds, d < 16) :
    decodeHexUpper ((ds.map hexDigitUpper).reverse) = ofDigitsLE ds := by
  unfold decodeHexUpper ofDigitsLE
  rw [List.foldl_reverse]
  induction ds with
  | nil => rfl
  | cons d rest ih =>
      rw [List.map_cons, List.foldr_cons, List.foldr_cons,
        ih (fun x hx => h x (List.mem_cons_of_mem d hx)),
        hexCharVal_hexDigitUpper (h d (List.mem_cons_self d rest))]
      ring

/-- C6 amended: for every entry whose 64-bit hash is absent from the table
(with `skip_unknown = false`), the planned relative path is `_Unknown/`
followed by `format!("{:08X}", hash)`: at least 8 uppercase-hex characters
(zero-padded to width 8, not 16), all of them hex digits, whose value decodes
back to the hash. -/
theorem c6_unknown_rel_path (table : FileNameTable) (hash : Nat)
    (hu : table hash = none) (hh : hash < 2 ^ 64) :
    resolveRelPath table false hash =
        some (strUtf16 "_Unknown/" ++ rustFormatHexUpperMin8 hash) ∧
      8 ≤ (rustFormatHexUpperMin8 hash).length ∧
      (∀ c ∈ rustFormatHexUpperMin8 hash, (48 ≤ c ∧ c ≤ 57) ∨ (65 ≤ c ∧ c ≤ 70)) ∧
      decodeHexUpper (rustFormatHexUpperMin8 hash) = hash := by
  refine ⟨?_, ?_, ?_, ?_⟩
  · unfold resolveRelPath
    rw [hu]
    rfl
  · unfold rustFormatHexUpperMin8
    simp only [List.length_append, List.length_replicate]
    omega
  · intro c hc
    unfold rustFormatHexUpperMin8 at hc
    rcases List.mem_append.mp hc with hpad | hdig
    · have := List.eq_of_mem_replicate hpad
      omega
    · rcases List.mem_map.mp hdig with ⟨d, hd, rfl⟩
      have hd16 : d < 16 := by
        unfold natHexDigits at hd
        split_ifs at hd with h0
        · simp at hd; omega
        · exact natHexDigitsAux_lt 16 hash d (List.mem_reverse.mp hd)
      unfold hexDigitUpper
      split_ifs <;> omega
  · unfold rustFormatHexUpperMin8
    rw [decodeHexUpper_replicate_zero]
    by_cases h0 : hash = 0
    · subst h0; decide
    · unfold natHexDigits
      rw [if_neg h0, List.map_reverse]
      rw [decodeHexUpper_reverse_map _ (natHexDigitsAux_lt 16 hash)]
      exact ofDigitsLE_natHexDigitsAux 16 hash (by
        have : (2 : Nat) ^ 64 = 16 ^ 16 := by norm_num
        omega)

/-- Witness for C6 amended at hash 1 and the empty table. -/
theorem c6_unknown_rel_path_witness :
    resolveRelPath (fun _ => none) false 1 =
        some (strUtf16 "_Unknown/" ++ rustFormatHexUpperMin8 1) ∧
      8 ≤ (rustFormatHexUpperMin8 1).length ∧
      (∀ c ∈ rustFormatHexUpperMin8 1, (48 ≤ c ∧ c ≤ 57) ∨ (65 ≤ c ∧ c ≤ 70)) ∧
      decodeHexUpper (rustFormatHexUpperMin8 1) = 1 :=
  c6_unknown_rel_path (fun _ => none) 1 rfl (by norm_num)

/-! ## `write/mod.rs`: `PakWriter`

The writer is modelled over an in-memory `Write + Seek` sink (as in the
repository's own round-trip test, which writes into a `Cursor<Vec<u8>>`):
seeks and writes on it always succeed, so the only `PakWriteError` sources
are the ones the code constructs itself. -/

/-- An entry record as created by `PakWriter::start_file`. -/
structure WEntry where
  hashNameLower : Nat
  hashNameUpper : Nat
  offset : Nat
  compressedSize : Nat
  uncompressedSize : Nat
  compressionType : Nat
  encryptionType : Nat
  checksum : Nat
  unkAttr : Nat
deriving DecidableEq

/-- `FileOptions`. -/
structure WFileOptions where
  compressionType : Nat
  encryptionType : Nat
  checksum : Nat
  unkAttr : Nat
deriving DecidableEq

/-- `PakWriterStats`. -/
structure WPakWriterStats where
  start : Nat
  bytesWritten : Nat
  allocHeaderSize : Nat
deriving DecidableEq

/-- `PakOptions`. -/
structure WPakOptions where
  majorVersion : Nat
  minorVersion : Nat
  tocHash : Nat
  preAllocateEntryCount : Nat
deriving DecidableEq

/-- `PakWriter` state: in-memory sink position, the `IndexMap<String, PakEntry>`
as an insertion-ordered association list, options, the in-progress flag and
the running stats. -/
structure WPakWriter where
  innerPos : Nat
  files : List (List Nat × WEntry)
  pakOptions : WPakOptions
  writingToFile : Bool
  stats : WPakWriterStats
deriving DecidableEq

/-- `PakWriteError`: the complete error enum of `write/mod.rs` — an IO error
or an unsupported target version.  (It has no entry-count variant.) -/
inductive PakWriteError where
  | io
  | unsupportedVersion (major minor : Nat)
deriving DecidableEq

/-- `IndexMap::insert`: replace in place when the key exists (keeping its
position), otherwise append. -/
def indexMapInsert (files : List (List Nat × WEntry)) (name : List Nat) (e : WEntry) :
    List (List Nat × WEntry) :=
  if files.any (fun p => p.1 == name) then
    files.map (fun p => if p.1 == name then (name, e) else p)
  else files ++ [(name, e)]

/-- `PakWriter::try_finish_file`: backfill the sizes of the last entry from
the stats; `files.values_mut().last().unwrap()` panics (`none`) when no entry
exists. -/
def try_finish_file (w : WPakWriter) : Option WPakWriter :=
  if ¬ w.writingToFile then some w
  else
    match w.files.getLast? with
    | none => none
    | some (n, e) =>
        some { w with
          files := w.files.dropLast ++
            [(n, { e with uncompressedSize := w.stats.bytesWritten,
                          compressedSize := w.stats.bytesWritten })],
          stats := { w.stats with start := 0, bytesWritten := 0 },
          writingToFile := false }

/-- `PakWriter::get_next_file_offset`. -/
def get_next_file_offset (w : WPakWriter) : Nat :=
  let dataSegOffset := (w.files.getLast?.map fun p => p.2.offset + p.2.compressedSize).getD 0
  w.stats.allocHeaderSize + dataSegOffset

/-- `PakWriter::start_file`: finish the current file, create the new entry at
the next offset, seek there and record it.  The in-memory seek always
succeeds; no entry-count check is performed anywhere. -/
def start_file (w : WPakWriter) (name : List Nat) (options : WFileOptions) :
    Option (Except PakWriteError WPakWriter) :=
  match try_finish_file w with
  | none => none
  | some w1 =>
      some (.ok { w1 with
        innerPos := w1.stats.allocHeaderSize +
          ((w1.files.getLast?.map fun p => p.2.offset + p.2.compressedSize).getD 0),
        files := indexMapInsert w1.files name
          { hashNameLower := fileNameHashLower name,
            hashNameUpper := fileNameHashUpper name,
            offset := get_next_file_offset w1,
            compressedSize := 0, uncompressedSize := 0,
            compressionType := options.compressionType,
            encryptionType := options.encryptionType,
            checksum := options.checksum,
            unkAttr := options.unkAttr },
        writingToFile := true })

/-- `PakWriter::new_with_options` (via `start_pak`): reject any version other
than 4.0, otherwise set up the empty writer with
`alloc_header_size = 16 + N * 48`. -/
def pak_writer_new_with_options (options : WPakOptions) :
    Except PakWriteError WPakWriter :=
  if ¬(options.majorVersion = 4) ∨ ¬(options.minorVersion = 0) then
    .error (.unsupportedVersion options.majorVersion options.minorVersion)
  else
    .ok { innerPos := 0, files := [], pakOptions := options, writingToFile := false,
          stats := { start := 0, bytesWritten := 0,
                     allocHeaderSize := 16 + options.preAllocateEntryCount * 48 } }

/-- `true` iff a `start_file` outcome is a non-panicking success. -/
def isOkSome {ε α : Type} : Option (Except ε α) → Bool
  | some (.ok _) => true
  | _ => false

/-- Feed the result of a previous `start_file` into another `start_file`. -/
def andThenStart (r : Option (Except PakWriteError WPakWriter)) (name : List Nat) :
    Option (Except PakWriteError WPakWriter) :=
  match r with
  | some (.ok w) => start_file w name ⟨0, 0, 0, 0⟩
  | other => other

/-- A writer pre-allocated for `N = 1` entries, with three `start_file` calls. -/
def c7ThreeStarts : Option (Except PakWriteError WPakWriter) :=
  match pak_writer_new_with_options ⟨4, 0, 0, 1⟩ with
  | .error _ => none
  | .ok w0 => andThenStart (andThenStart (start_file w0 [97] ⟨0, 0, 0, 0⟩) [98]) [99]

/-- C7 counterexample: with pre-allocated entry count `N = 1`, the second and
third `start_file` calls succeed (and record 3 entries) instead of failing
with an `EntryCountExceeded` error — indeed `PakWriteError` has no such
variant at all. -/
theorem c7_counterexample :
    isOkSome c7ThreeStarts = true ∧
      (match c7ThreeStarts with
       | some (.ok w) => w.files.length
       | _ => 0) = 3 ∧
      (match c7ThreeStarts with
       | some (.ok w) => w.pakOptions.preAllocateEntryCount
       | _ => 0) = 1 := by
  refine ⟨?_, ?_, ?_⟩ <;> decide

theorem indexMapInsert_ne_nil (files : List (List Nat × WEntry)) (name : List Nat)
    (e : WEntry) : indexMapInsert files name e ≠ [] := by
  unfold indexMapInsert
  split_ifs with h
  · intro hc
    rcases files with _ | ⟨p, ps⟩
    · simp at h
    · simp at hc
  · simp

/-- C7 amended: `start_file` performs no entry-count check and cannot fail:
for every writer state whose in-progress flag is consistent (a file being
written implies at least one recorded entry), `start_file` returns a new
writer with the file recorded, regardless of how many files have already
been started relative to the pre-allocated count `N`. -/
theorem c7_start_file_always_succeeds (w : WPakWriter) (name : List Nat)
    (opts : WFileOptions) (hinv : w.writingToFile = true → w.files ≠ []) :
    ∃ w', start_file w name opts = some (.ok w') ∧
      w'.writingToFile = true ∧ w'.files ≠ [] := by
  unfold start_file try_finish_file
  by_cases hw : w.writingToFile
  · rcases hl : w.files.getLast? with _ | ⟨n, e⟩
    · exact absurd (List.getLast?_eq_none_iff.mp hl) (hinv hw)
    · rw [if_neg (by simpa using hw)]
      exact ⟨_, rfl, rfl, indexMapInsert_ne_nil _ _ _⟩
  · rw [if_pos hw]
    exact ⟨_, rfl, rfl, indexMapInsert_ne_nil _ _ _⟩

/-- Witness for C7 amended at a fresh writer pre-allocated for `N = 0`
entries: the first `start_file` (already "after `N` files") succeeds. -/
theorem c7_start_file_always_succeeds_witness :
    ∃ w', start_file ⟨0, [], ⟨4, 0, 0, 0⟩, false, ⟨0, 0, 16⟩⟩ [97] ⟨0, 0, 0, 0⟩ =
        some (.ok w') ∧ w'.writingToFile = true ∧ w'.files ≠ [] :=
  c7_start_file_always_succeeds ⟨0, [], ⟨4, 0, 0, 0⟩, false, ⟨0, 0, 16⟩⟩ [97] ⟨0, 0, 0, 0⟩
    (fun h => absurd h (by decide))

/-! ## `extract.rs` (`PakExtractBuilder::extract_one`) -/

/-- The output filesystem, as a map from path to file contents (directories
are not modelled: `create_dir_all` never touches file contents). -/
abbrev FileSystem : Type := List Nat → Option (List Nat)

/-- Per-entry extraction error kinds. -/
inductive ExtractError where
  | ioAlreadyExists
  | ioError
  | pakError
deriving DecidableEq

/-- `PakExtractBuilder::extract_one` over the filesystem model.
`entryOpen` stands for `open_entry` + the streamed entry bytes (an `Except`
as the pipeline may fail); `hasExt` for `out_path.extension().is_none()`
negated; `sniffedExt` for `determine_extension()`; `withExtPath` for
`out_path.with_extension(ext)`.  With `overwrite` the file is opened with
`create(true).write(true).truncate(true)`, otherwise with
`create_new(true).write(true)` which fails when the target exists. -/
def extract_one (overwrite : Bool) (outPath : List Nat)
    (entryOpen : Except ExtractError (List Nat))
    (hasExt : Bool) (sniffedExt : Option (List Nat)) (withExtPath : List Nat)
    (fs : FileSystem) : Except ExtractError Unit × FileSystem :=
  if overwrite then
    let fs1 := Function.update fs outPath (some [])
    match entryOpen with
    | .error e => (.error e, fs1)
    | .ok data =>
        let fs2 := Function.update fs1 outPath (some data)
        if !hasExt then
          match sniffedExt with
          | some _ =>
              (.ok (), Function.update (Function.update fs2 outPath none) withExtPath (some data))
          | none => (.ok (), fs2)
        else (.ok (), fs2)
  else
    match fs outPath with
    | some _ => (.error .ioAlreadyExists, fs)
    | none =>
        let fs1 := Function.update fs outPath (some [])
        match entryOpen with
        | .error e => (.error e, fs1)
        | .ok data =>
            let fs2 := Function.update fs1 outPath (some data)
            if !hasExt then
              match sniffedExt with
              | some _ =>
                  (.ok (), Function.update (Function.update fs2 outPath none) withExtPath (some data))
              | none => (.ok (), fs2)
            else (.ok (), fs2)

/-- C4: with `overwrite = false` and a pre-existing target file, `extract_one`
returns the create-new failure as the per-entry error and the filesystem —
in particular the pre-existing file — is completely untouched. -/
theorem c4_no_overwrite_error_and_untouched (outPath : List Nat)
    (entryOpen : Except ExtractError (List Nat)) (hasExt : Bool)
    (sniffedExt : Option (List Nat)) (withExtPath : List Nat)
    (fs : FileSystem) (c : List Nat) (hexists : fs outPath = some c) :
    extract_one false outPath entryOpen hasExt sniffedExt withExtPath fs =
      (.error .ioAlreadyExists, fs) := by
  unfold extract_one
  rw [if_neg Bool.false_ne_true, hexists]

/-- Witness for C4 at a one-file filesystem. -/
theorem c4_no_overwrite_error_and_untouched_witness :
    extract_one false [97] (.ok [7]) false none [97, 46, 116]
        (Function.update (fun _ => none) [97] (some [1, 2])) =
      (.error .ioAlreadyExists, Function.update (fun _ => none) [97] (some [1, 2])) :=
  c4_no_overwrite_error_and_untouched [97] (.ok [7]) false none [97, 46, 116]
    (Function.update (fun _ => none) [97] (some [1, 2])) [1, 2] (by simp [Function.update])

/-! ## `read/extension.rs`: the magic-sniffing reader -/

/-- `ExtensionReader` state: the remaining bytes of the underlying stream
(modelled as a full-delivery reader: a read with a buffer of `k` bytes
returns `min(k, remaining)` bytes), the 8-byte `magic_bytes` buffer, and
`magic_read_length`. -/
structure ExtReader where
  inner : List Nat
  magicBytes : List Nat
  magicReadLength : Nat
deriving DecidableEq

/-- `ExtensionReader::new`. -/
def extReaderNew (stream : List Nat) : ExtReader :=
  ⟨stream, List.replicate 8 0, 0⟩

/-- `ExtensionReader::read` with a caller buffer of `bufLen` bytes, exactly as
written in the source: while `magic_read_length < 8` the inner read targets
the slice `magic_bytes[magic_read_length..(8 - magic_read_length)]` (an
invalid slice — a panic, modelled as `none` — when `magic_read_length > 4`),
the first `min(magic_read_length, bufLen)` captured bytes are copied to the
caller from the START of `magic_bytes`, and only when that count is exactly 8
is the rest of the caller's buffer filled from the underlying stream. -/
def extRead (r : ExtReader) (bufLen : Nat) : Option (List Nat × ExtReader) :=
  if r.magicReadLength < 8 then
    let bytesToRead := 8 - r.magicReadLength
    if bytesToRead < r.magicReadLength then none
    else
      let sliceLen := bytesToRead - r.magicReadLength
      let got := r.inner.take sliceLen
      let inner1 := r.inner.drop sliceLen
      let magic1 := r.magicBytes.take r.magicReadLength ++ got ++
        r.magicBytes.drop (r.magicReadLength + got.length)
      let mrl1 := r.magicReadLength + got.length
      let bytesToCopy := min mrl1 bufLen
      let out := magic1.take bytesToCopy
      if bytesToCopy = 8 then
        some (out ++ inner1.take (bufLen - bytesToCopy),
          ⟨inner1.drop (bufLen - bytesToCopy), magic1, mrl1⟩)
      else
        some (out, ⟨inner1, magic1, mrl1⟩)
  else
    some (r.inner.take bufLen, ⟨r.inner.drop bufLen, r.magicBytes, r.magicReadLength⟩)

/-- A sequence of `read` calls with the given buffer sizes, concatenating the
returned bytes (`none` as soon as one call panics). -/
def extReadMany (r : ExtReader) : List Nat → Option (List Nat × ExtReader)
  | [] => some ([], r)
  | n :: ns =>
    match extRead r n with
    | none => none
    | some (out, r1) =>
        match extReadMany r1 ns with
        | none => none
        | some (rest, r2) => some (out ++ rest, r2)

/-- C8 (code bug): the magic sniffer does not splice the captured bytes back.
On the 9-byte stream `1..9`, reading with buffer sizes 1 and then 100 yields
`[1, 9]` — bytes 2..8 are captured into `magic_bytes` but never returned to
the caller — instead of the full stream.  Moreover, on a 6-byte stream two
reads panic outright: the second read slices
`magic_bytes[6..2]`, an invalid range. -/
theorem c8_read_drops_bytes :
    extReadMany (extReaderNew [1, 2, 3, 4, 5, 6, 7, 8, 9]) [1, 100] =
        some ([1, 9], ⟨[], [1, 2, 3, 4, 5, 6, 7, 8], 8⟩) ∧
      [1, 9] ≠ [1, 2, 3, 4, 5, 6, 7, 8, 9] ∧
      extReadMany (extReaderNew [1, 2, 3, 4, 5, 6]) [10, 10] = none := by
  refine ⟨?_, ?_, ?_⟩ <;> decide

/-! ## `pakfile.rs`: `ChunkedRead`

The chunk table is abstracted to its `block_size`, its chunk count, and a
decode function `dec : chunk index → Option (decoded bytes)` standing for
"read the chunk's `compressed_len` bytes from disk and, unless raw,
zstd-decode them" (`none` = range/IO/zstd failure).  The claim quantifies
over the decoded outputs, so this is the faithful boundary. -/

/-- `ChunkedRead` state: next chunk to decode, remaining output bytes,
current decoded block and read cursor into it. -/
structure ChunkedRead where
  nextChunkIndex : Nat
  remaining : Nat
  buf : List Nat
  bufPos : Nat
deriving DecidableEq

/-- Errors of the chunked reader (construction and streaming). -/
inductive ChunkError where
  | invalidChunkTable
  | invalidChunkIndex (i : Nat)
  | chunkIndexOutOfRange (i : Nat)
  | chunkDecodeFailed (i : Nat)
  | badChunkSize (i got expected : Nat)
  | fuelExhausted
deriving DecidableEq

/-- `ChunkedRead::new`: reject a zero block size, a start index outside the
table, and (for a nonzero target length) a chunk range
`start + ceil(L / block_size)` beyond the table. -/
def chunkedNew (blockSize numChunks startChunk totalLen : Nat) :
    Except ChunkError ChunkedRead :=
  if blockSize = 0 then .error .invalidChunkTable
  else if startChunk ≥ numChunks then .error (.invalidChunkIndex startChunk)
  else if totalLen > 0 ∧
      startChunk + (totalLen + blockSize - 1) / blockSize > numChunks then
    .error (.invalidChunkIndex (startChunk + (totalLen + blockSize - 1) / blockSize))
  else .ok ⟨startChunk, totalLen, [], 0⟩

/-- `ChunkedRead::refill`: nothing to do at end of stream; otherwise fetch
the next chunk descriptor (error when past the table), decode it (`dec`),
and insist the decoded block is exactly `block_size` bytes. -/
def chunkedRefill (blockSize numChunks : Nat) (dec : Nat → Option (List Nat))
    (s : ChunkedRead) : Except ChunkError ChunkedRead :=
  if s.remaining = 0 then .ok { s with buf := [], bufPos := 0 }
  else if s.nextChunkIndex ≥ numChunks then
    .error (.chunkIndexOutOfRange s.nextChunkIndex)
  else
    match dec s.nextChunkIndex with
    | none => .error (.chunkDecodeFailed s.nextChunkIndex)
    | some out =>
        if out.length ≠ blockSize then
          .error (.badChunkSize s.nextChunkIndex out.length blockSize)
        else .ok { s with nextChunkIndex := s.nextChunkIndex + 1, buf := out, bufPos := 0 }

/-- The tail of `ChunkedRead::read` after a (possible) refill: return 0
bytes when the block buffer is empty, otherwise copy
`min(n, available, remaining)` bytes out of the block and advance. -/
def chunkedConsume (s : ChunkedRead) (n : Nat) :
    Except ChunkError (List Nat × ChunkedRead) :=
  if s.buf = [] then .ok ([], s)
  else
    let want := min n (min (s.buf.length - s.bufPos) s.remaining)
    .ok ((s.buf.drop s.bufPos).take want,
      { s with bufPos := s.bufPos + want, remaining := s.remaining - want })

/-- `ChunkedRead::read` with a caller buffer of `n` bytes: end-of-stream when
`remaining == 0`; refill when the block is exhausted; then copy out of the
block (`chunkedConsume`). -/
def chunkedReadStep (blockSize numChunks : Nat) (dec : Nat → Option (List Nat))
    (s : ChunkedRead) (n : Nat) : Except ChunkError (List Nat × ChunkedRead) :=
  if s.remaining = 0 then .ok ([], s)
  else if s.buf.length ≤ s.bufPos then
    match chunkedRefill blockSize numChunks dec s with
    | .error e => .error e
    | .ok s1 => chunkedConsume s1 n
  else chunkedConsume s n

/-- `Read::read_to_end` over the chunked reader with a fixed request size
`n`, with fuel (the theorems supply enough fuel; the reader consumes at
least one output byte per call until end of stream). -/
def chunkedReadToEnd (blockSize numChunks : Nat) (dec : Nat → Option (List Nat)) :
    Nat → Nat → ChunkedRead → Except ChunkError (List Nat)
  | 0, _, _ => .error .fuelExhausted
  | fuel + 1, n, s =>
    match chunkedReadStep blockSize numChunks dec s n with
    | .error e => .error e
    | .ok (bs, s1) =>
        if bs = [] then .ok []
        else
          match chunkedReadToEnd blockSize numChunks dec fuel n s1 with
          | .error e => .error e
          | .ok rest => .ok (bs ++ rest)

/-- Concatenation of the decoded outputs of `count` consecutive chunks
starting at index `i`. -/
def chunksConcat (dec : Nat → Option (List Nat)) : Nat → Nat → List Nat
  | _, 0 => []
  | i, count + 1 => (dec i).getD [] ++ chunksConcat dec (i + 1) count

/-- Chunks still needed to supply the remaining output beyond the current
block: `ceil((remaining - available) / block_size)`. -/
def needChunks (blockSize : Nat) (s : ChunkedRead) : Nat :=
  (s.remaining - (s.buf.length - s.bufPos) + blockSize - 1) / blockSize

theorem chunkedStep_done (blockSize numChunks : Nat) (dec : Nat → Option (List Nat))
    (s : ChunkedRead) (n : Nat) (hr : s.remaining = 0) :
    chunkedReadStep blockSize numChunks dec s n = .ok ([], s) := by
  unfold chunkedReadStep
  rw [if_pos hr]

theorem chunkedStep_consume (blockSize numChunks : Nat) (dec : Nat → Option (List Nat))
    (s : ChunkedRead) (n : Nat) (hr : s.remaining ≠ 0) (hb : s.bufPos < s.buf.length) :
    chunkedReadStep blockSize numChunks dec s n =
      .ok ((s.buf.drop s.bufPos).take (min n (min (s.buf.length - s.bufPos) s.remaining)),
        { s with bufPos := s.bufPos + min n (min (s.buf.length - s.bufPos) s.remaining),
                 remaining := s.remaining - min n (min (s.buf.length - s.bufPos) s.remaining) }) := by
  have hnil : s.buf ≠ [] := by
    intro h
    rw [h] at hb
    simp at hb
  unfold chunkedReadStep chunkedConsume
  rw [if_neg hr, if_neg (by omega), if_neg hnil]

theorem chunkedRefill_ok (blockSize numChunks : Nat)
    (dec : Nat → Option (List Nat)) (s : ChunkedRead) (b : List Nat)
    (hr : s.remaining ≠ 0) (hlt : s.nextChunkIndex < numChunks)
    (hdec : dec s.nextChunkIndex = some b) (hlen : b.length = blockSize) :
    chunkedRefill blockSize numChunks dec s =
      .ok ⟨s.nextChunkIndex + 1, s.remaining, b, 0⟩ := by
  unfold chunkedRefill
  rw [if_neg hr, if_neg (by omega), hdec]
  show ((if b.length ≠ blockSize then
      Except.error (ChunkError.badChunkSize s.nextChunkIndex b.length blockSize)
    else Except.ok ⟨s.nextChunkIndex + 1, s.remaining, b, 0⟩) :
      Except ChunkError ChunkedRead) = _
  rw [if_neg (by simpa using hlen)]

theorem chunkedStep_refill_consume (blockSize numChunks : Nat)
    (dec : Nat → Option (List Nat)) (s : ChunkedRead) (n : Nat) (b : List Nat)
    (hr : s.remaining ≠ 0) (hb : s.buf.length ≤ s.bufPos)
    (hlt : s.nextChunkIndex < numChunks) (hdec : dec s.nextChunkIndex = some b)
    (hlen : b.length = blockSize) (hbs : 0 < blockSize) :
    chunkedReadStep blockSize numChunks dec s n =
      .ok (b.take (min n (min blockSize s.remaining)),
        ⟨s.nextChunkIndex + 1, s.remaining - min n (min blockSize s.remaining), b,
          min n (min blockSize s.remaining)⟩) := by
  have hnil : b ≠ [] := by
    intro h
    rw [h] at hlen
    simp at hlen
    omega
  unfold chunkedReadStep
  rw [if_neg hr, if_pos hb, chunkedRefill_ok blockSize numChunks dec s b hr hlt hdec hlen]
  show chunkedConsume ⟨s.nextChunkIndex + 1, s.remaining, b, 0⟩ n = _
  unfold chunkedConsume
  rw [if_neg hnil]
  simp only [hlen, List.drop_zero, Nat.sub_zero, Nat.zero_add]

theorem chunkedStep_refill_badsize (blockSize numChunks : Nat)
    (dec : Nat → Option (List Nat)) (s : ChunkedRead) (n : Nat) (out : List Nat)
    (hr : s.remaining ≠ 0) (hb : s.buf.length ≤ s.bufPos)
    (hlt : s.nextChunkIndex < numChunks) (hdec : dec s.nextChunkIndex = some out)
    (hbad : out.length ≠ blockSize) :
    chunkedReadStep blockSize numChunks dec s n =
      .error (.badChunkSize s.nextChunkIndex out.length blockSize) := by
  have hrf : chunkedRefill blockSize numChunks dec s =
      .error (.badChunkSize s.nextChunkIndex out.length blockSize) := by
    unfold chunkedRefill
    rw [if_neg hr, if_neg (by omega), hdec]
    show ((if out.length ≠ blockSize then
        Except.error (ChunkError.badChunkSize s.nextChunkIndex out.length blockSize)
      else Except.ok ⟨s.nextChunkIndex + 1, s.remaining, out, 0⟩) :
        Except ChunkError ChunkedRead) = _
    rw [if_pos (by simpa using hbad)]
  unfold chunkedReadStep
  rw [if_neg hr, if_pos hb, hrf]

theorem chunkedReadToEnd_step (blockSize numChunks : Nat)
    (dec : Nat → Option (List Nat)) (f n : Nat) (s s1 : ChunkedRead)
    (out : List Nat)
    (h : chunkedReadStep blockSize numChunks dec s n = .ok (out, s1)) :
    chunkedReadToEnd blockSize numChunks dec (f + 1) n s =
      if out = [] then .ok []
      else
        match chunkedReadToEnd blockSize numChunks dec f n s1 with
        | .error e => .error e
        | .ok rest => .ok (out ++ rest) := by
  have e1 : chunkedReadToEnd blockSize numChunks dec (f + 1) n s =
      match chunkedReadStep blockSize numChunks dec s n with
      | .error e => .error e
      | .ok (out, s1) =>
          if out = [] then .ok []
          else
            match chunkedReadToEnd blockSize numChunks dec f n s1 with
            | .error e => .error e
            | .ok rest => .ok (out ++ rest) := rfl
  rw [e1, h]

theorem chunkedReadToEnd_step_err (blockSize numChunks : Nat)
    (dec : Nat → Option (List Nat)) (f n : Nat) (s : ChunkedRead) (e : ChunkError)
    (h : chunkedReadStep blockSize numChunks dec s n = .error e) :
    chunkedReadToEnd blockSize numChunks dec (f + 1) n s = .error e := by
  have e1 : chunkedReadToEnd blockSize numChunks dec (f + 1) n s =
      match chunkedReadStep blockSize numChunks dec s n with
      | .error e => .error e
      | .ok (out, s1) =>
          if out = [] then .ok []
          else
            match chunkedReadToEnd blockSize numChunks dec f n s1 with
            | .error e => .error e
            | .ok rest => .ok (out ++ rest) := rfl
  rw [e1, h]

theorem ceil_shift (bs r : Nat) (hbs : 0 < bs) (hr : 0 < r) :
    (r + bs - 1) / bs = (r - bs + bs - 1) / bs + 1 := by
  rcases le_or_lt r bs with hle | hlt
  · have e2 : r + bs - 1 = (r - 1) + bs := by omega
    rw [e2, Nat.add_div_right _ hbs]
    have l1 : (r - 1) / bs = 0 := Nat.div_eq_of_lt (by omega)
    have l2 : (r - bs + bs - 1) / bs = 0 := Nat.div_eq_of_lt (by omega)
    rw [l1, l2]
  · have e2 : r + bs - 1 = (r - bs + bs - 1) + bs := by omega
    rw [e2, Nat.add_div_right _ hbs]

theorem take_split_once (X1 C : List Nat) (r w : Nat) (hw1 : w ≤ X1.length)
    (hw2 : w ≤ r) :
    List.take r (X1 ++ C) = X1.take w ++ List.take (r - w) (X1.drop w ++ C) := by
  conv_lhs => rw [show r = w + (r - w) by omega]
  rw [List.take_add, List.take_append_of_le_length hw1, List.drop_append_of_le_length hw1]


/-- Main invariant of the chunked reader: with enough fuel, a consistent
cursor, and every needed chunk decoding to exactly `block_size` bytes,
reading to end-of-stream yields the unread part of the current block followed
by the concatenation of the needed decoded chunks, truncated to `remaining`
bytes. -/
theorem chunkedReadToEnd_ok_of_good (blockSize numChunks : Nat)
    (dec : Nat → Option (List Nat)) (hbs : 0 < blockSize) (n : Nat) (hn : 0 < n) :
    ∀ (fuel : Nat) (s : ChunkedRead),
      s.remaining < fuel →
      s.bufPos ≤ s.buf.length →
      s.nextChunkIndex + needChunks blockSize s ≤ numChunks →
      (∀ j, s.nextChunkIndex ≤ j → j < s.nextChunkIndex + needChunks blockSize s →
        ∃ b, dec j = some b ∧ b.length = blockSize) →
      chunkedReadToEnd blockSize numChunks dec fuel n s =
        .ok (List.take s.remaining
          ((s.buf.drop s.bufPos) ++
            chunksConcat dec s.nextChunkIndex (needChunks blockSize s))) := by
  intro fuel
  induction fuel with
  | zero => intro s hfuel; exact absurd hfuel (Nat.not_lt_zero _)
  | succ f ih =>
      intro s hfuel hpos hbound hgood
      by_cases hr : s.remaining = 0
      · rw [chunkedReadToEnd_step blockSize numChunks dec f n s s []
          (chunkedStep_done blockSize numChunks dec s n hr), if_pos rfl, hr]
        rfl
      · by_cases hb : s.buf.length ≤ s.bufPos
        · -- the current block is exhausted: refill, then consume
          have hneed1 : 1 ≤ needChunks blockSize s := by
            unfold needChunks
            rw [Nat.le_div_iff_mul_le hbs]
            omega
          obtain ⟨b, hdec, hlen⟩ := hgood s.nextChunkIndex (Nat.le_refl _) (by omega)
          have hlt : s.nextChunkIndex < numChunks := by omega
          rw [chunkedReadToEnd_step blockSize numChunks dec f n s _ _
            (chunkedStep_refill_consume blockSize numChunks dec s n b hr hb hlt hdec hlen hbs)]
          set w := min n (min blockSize s.remaining) with hw
          have hw1 : 1 ≤ w := by omega
          have hwb : w ≤ blockSize := by omega
          have hwr : w ≤ s.remaining := by omega
          have hbne : b.take w ≠ [] := by
            intro hc
            have hc2 : (b.take w).length = 0 := by rw [hc]; rfl
            rw [List.length_take] at hc2
            omega
          rw [if_neg hbne]
          have hneed3 : needChunks blockSize ⟨s.nextChunkIndex + 1, s.remaining - w, b, w⟩ + 1
              = needChunks blockSize s := by
            unfold needChunks
            dsimp only
            have e1 : s.remaining - w - (b.length - w) = s.remaining - blockSize := by omega
            have e2 : s.remaining - (s.buf.length - s.bufPos) = s.remaining := by omega
            rw [e1, e2]
            exact (ceil_shift blockSize s.remaining hbs (by omega)).symm
          rw [ih ⟨s.nextChunkIndex + 1, s.remaining - w, b, w⟩
            (by dsimp only; omega)
            (by dsimp only; omega)
            (by dsimp only; omega)
            (by
              dsimp only
              intro j hj1 hj2
              exact hgood j (by omega) (by omega))]
          rw [List.drop_eq_nil_of_le hb, List.nil_append, ← hneed3]
          rw [show chunksConcat dec s.nextChunkIndex
              (needChunks blockSize ⟨s.nextChunkIndex + 1, s.remaining - w, b, w⟩ + 1)
              = (dec s.nextChunkIndex).getD [] ++
                chunksConcat dec (s.nextChunkIndex + 1)
                  (needChunks blockSize ⟨s.nextChunkIndex + 1, s.remaining - w, b, w⟩)
            from rfl]
          rw [hdec, Option.getD_some]
          rw [take_split_once b _ s.remaining w (by omega) hwr]
        · -- bytes left in the current block: plain consume
          have hb' : s.bufPos < s.buf.length := by omega
          rw [chunkedReadToEnd_step blockSize numChunks dec f n s _ _
            (chunkedStep_consume blockSize numChunks dec s n hr hb')]
          set w := min n (min (s.buf.length - s.bufPos) s.remaining) with hw
          have hw1 : 1 ≤ w := by omega
          have hwa : w ≤ s.buf.length - s.bufPos := by omega
          have hwr : w ≤ s.remaining := by omega
          have hbne : (s.buf.drop s.bufPos).take w ≠ [] := by
            intro hc
            have hc2 : ((s.buf.drop s.bufPos).take w).length = 0 := by rw [hc]; rfl
            rw [List.length_take, List.length_drop] at hc2
            omega
          rw [if_neg hbne]
          have hneed2 : needChunks blockSize
              { s with bufPos := s.bufPos + w, remaining := s.remaining - w }
              = needChunks blockSize s := by
            unfold needChunks
            dsimp only
            have e1 : s.remaining - w - (s.buf.length - (s.bufPos + w))
                = s.remaining - (s.buf.length - s.bufPos) := by omega
            rw [e1]
          rw [ih { s with bufPos := s.bufPos + w, remaining := s.remaining - w }
            (by dsimp only; omega)
            (by dsimp only; omega)
            (by dsimp only; omega)
            (by
              dsimp only
              intro j hj1 hj2
              exact hgood j (by omega) (by omega))]
          dsimp only
          rw [hneed2, ← List.drop_drop]
          rw [take_split_once (s.buf.drop s.bufPos) _ s.remaining w
            (by rw [List.length_drop]; omega) hwr]

/-- Failure invariant: if the first `k` chunks ahead are good but chunk
`nextChunkIndex + k` — still needed by the remaining length — decodes to a
block of the wrong size, the read fails at that chunk with the corresponding
error. -/
theorem chunkedReadToEnd_fails_at_bad_chunk (blockSize numChunks : Nat)
    (dec : Nat → Option (List Nat)) (hbs : 0 < blockSize) (n : Nat) (hn : 0 < n) :
    ∀ (fuel : Nat) (s : ChunkedRead) (k : Nat) (out : List Nat),
      s.remaining < fuel →
      s.bufPos ≤ s.buf.length →
      s.nextChunkIndex + k < numChunks →
      (∀ j, s.nextChunkIndex ≤ j → j < s.nextChunkIndex + k →
        ∃ b, dec j = some b ∧ b.length = blockSize) →
      (s.buf.length - s.bufPos) + k * blockSize < s.remaining →
      dec (s.nextChunkIndex + k) = some out →
      out.length ≠ blockSize →
      chunkedReadToEnd blockSize numChunks dec fuel n s =
        .error (.badChunkSize (s.nextChunkIndex + k) out.length blockSize) := by
  intro fuel
  induction fuel with
  | zero => intro s k out hfuel; exact absurd hfuel (Nat.not_lt_zero _)
  | succ f ih =>
      intro s k out hfuel hpos hbound hgood hsz hdecbad hbad
      have hr : s.remaining ≠ 0 := by
        have hk : 0 ≤ k * blockSize := Nat.zero_le _
        omega
      by_cases hb : s.buf.length ≤ s.bufPos
      · cases k with
        | zero =>
            have hlt : s.nextChunkIndex < numChunks := by omega
            rw [chunkedReadToEnd_step_err blockSize numChunks dec f n s _
              (chunkedStep_refill_badsize blockSize numChunks dec s n out hr hb hlt
                hdecbad hbad)]
            rfl
        | succ kk =>
            obtain ⟨b, hdec, hlen⟩ := hgood s.nextChunkIndex (Nat.le_refl _) (by omega)
            have hlt : s.nextChunkIndex < numChunks := by omega
            rw [chunkedReadToEnd_step blockSize numChunks dec f n s _ _
              (chunkedStep_refill_consume blockSize numChunks dec s n b hr hb hlt hdec hlen hbs)]
            set w := min n (min blockSize s.remaining) with hw
            have hmul : (kk + 1) * blockSize = kk * blockSize + blockSize := by ring
            rw [hmul] at hsz
            have hw1 : 1 ≤ w := by omega
            have hwb : w ≤ blockSize := by omega
            have hwr : w ≤ s.remaining := by omega
            have hbne : b.take w ≠ [] := by
              intro hc
              have hc2 : (b.take w).length = 0 := by rw [hc]; rfl
              rw [List.length_take] at hc2
              omega
            rw [if_neg hbne]
            rw [ih ⟨s.nextChunkIndex + 1, s.remaining - w, b, w⟩ kk out
              (by dsimp only; omega)
              (by dsimp only; omega)
              (by dsimp only; omega)
              (by
                dsimp only
                intro j hj1 hj2
                exact hgood j (by omega) (by omega))
              (by dsimp only; omega)
              (by
                dsimp only
                rw [show s.nextChunkIndex + 1 + kk = s.nextChunkIndex + (kk + 1) by omega]
                exact hdecbad)
              hbad]
            rw [show s.nextChunkIndex + 1 + kk = s.nextChunkIndex + (kk + 1) by omega]
      · have hb2 : s.bufPos < s.buf.length := by omega
        rw [chunkedReadToEnd_step blockSize numChunks dec f n s _ _
          (chunkedStep_consume blockSize numChunks dec s n hr hb2)]
        set w := min n (min (s.buf.length - s.bufPos) s.remaining) with hw
        have hw1 : 1 ≤ w := by omega
        have hwa : w ≤ s.buf.length - s.bufPos := by omega
        have hwr : w ≤ s.remaining := by omega
        have hbne : (s.buf.drop s.bufPos).take w ≠ [] := by
          intro hc
          have hc2 : ((s.buf.drop s.bufPos).take w).length = 0 := by rw [hc]; rfl
          rw [List.length_take, List.length_drop] at hc2
          omega
        rw [if_neg hbne]
        rw [ih { s with bufPos := s.bufPos + w, remaining := s.remaining - w } k out
          (by dsimp only; omega)
          (by dsimp only; omega)
          (by dsimp only; omega)
          (by
            dsimp only
            intro j hj1 hj2
            exact hgood j (by omega) (by omega))
          (by dsimp only; omega)
          hdecbad
          hbad]

theorem chunkedNew_ok_facts (blockSize numChunks start L : Nat) (s0 : ChunkedRead)
    (h : chunkedNew blockSize numChunks start L = .ok s0) :
    0 < blockSize ∧ start < numChunks ∧
      (0 < L → start + (L + blockSize - 1) / blockSize ≤ numChunks) ∧
      s0 = ⟨start, L, [], 0⟩ := by
  unfold chunkedNew at h
  split_ifs at h with h1 h2 h3
  cases h
  exact ⟨by omega, by omega, fun hL => by omega, rfl⟩

/-- C2: for a chunked entry read through `ChunkedRead` (constructed for start
index `start` and target length `L`): if every referenced chunk — indices
`start ≤ j < start + ceil(L / block_size)` — decodes to exactly `block_size`
bytes, reading to end-of-stream yields exactly the concatenation of those
decoded chunks truncated to `L` bytes; and if the first `k` referenced chunks
are good but chunk `start + k` (still needed, `k * block_size < L`) decodes
to any other length, the read fails at that chunk with the size error. -/
theorem c2_chunked_read_correct :
    (∀ (blockSize numChunks : Nat) (dec : Nat → Option (List Nat))
        (start L n : Nat) (s0 : ChunkedRead),
      0 < n →
      chunkedNew blockSize numChunks start L = .ok s0 →
      (∀ j, start ≤ j → j < start + (L + blockSize - 1) / blockSize →
        ∃ b, dec j = some b ∧ b.length = blockSize) →
      chunkedReadToEnd blockSize numChunks dec (L + 1) n s0 =
        .ok (List.take L (chunksConcat dec start ((L + blockSize - 1) / blockSize))))
  ∧ (∀ (blockSize numChunks : Nat) (dec : Nat → Option (List Nat))
        (start L n k : Nat) (out : List Nat) (s0 : ChunkedRead),
      0 < n →
      chunkedNew blockSize numChunks start L = .ok s0 →
      (∀ j, start ≤ j → j < start + k → ∃ b, dec j = some b ∧ b.length = blockSize) →
      k * blockSize < L →
      dec (start + k) = some out →
      out.length ≠ blockSize →
      chunkedReadToEnd blockSize numChunks dec (L + 1) n s0 =
        .error (.badChunkSize (start + k) out.length blockSize)) := by
  constructor
  · intro blockSize numChunks dec start L n s0 hn hnew hgood
    obtain ⟨hbs, hsn, hbound, rfl⟩ :=
      chunkedNew_ok_facts blockSize numChunks start L s0 hnew
    have hneed0 : needChunks blockSize ⟨start, L, [], 0⟩ = (L + blockSize - 1) / blockSize := rfl
    have hres := chunkedReadToEnd_ok_of_good blockSize numChunks dec hbs n hn (L + 1)
      ⟨start, L, [], 0⟩
      (by dsimp only; omega)
      (by dsimp only; omega)
      (by
        rw [hneed0]
        dsimp only
        by_cases hL : 0 < L
        · exact hbound hL
        · have hL0 : L = 0 := by omega
          subst hL0
          have : (0 + blockSize - 1) / blockSize = 0 := Nat.div_eq_of_lt (by omega)
          omega)
      (by
        rw [hneed0]
        dsimp only
        exact hgood)
    exact hres
  · intro blockSize numChunks dec start L n k out s0 hn hnew hgood hkL hdecbad hbad
    obtain ⟨hbs, hsn, hbound, rfl⟩ :=
      chunkedNew_ok_facts blockSize numChunks start L s0 hnew
    have hL : 0 < L := by
      have := Nat.zero_le (k * blockSize)
      omega
    have hmul : (k + 1) * blockSize = k * blockSize + blockSize := by ring
    have hkceil : k < (L + blockSize - 1) / blockSize := by
      have hle : k + 1 ≤ (L + blockSize - 1) / blockSize := by
        rw [Nat.le_div_iff_mul_le hbs, hmul]
        omega
      omega
    have hcov : start + k < numChunks := by
      have := hbound hL
      omega
    exact chunkedReadToEnd_fails_at_bad_chunk blockSize numChunks dec hbs n hn (L + 1)
      ⟨start, L, [], 0⟩ k out
      (by dsimp only; omega)
      (by dsimp only; omega)
      (by dsimp only; omega)
      (by dsimp only; exact hgood)
      (by dsimp only [List.length_nil]; omega)
      hdecbad
      hbad

/-- A concrete 3-chunk decode map (block size 2). -/
def c2dec : Nat → Option (List Nat) :=
  fun j => if j = 0 then some [1, 2] else if j = 1 then some [3, 4]
    else if j = 2 then some [5, 6] else none

/-- Like `c2dec` but chunk 1 decodes to a single byte (wrong size). -/
def c2decBad : Nat → Option (List Nat) :=
  fun j => if j = 0 then some [1, 2] else if j = 1 then some [9] else none

/-- Witness for C2 at block size 2, 3 chunks, target length 3. -/
theorem c2_chunked_read_correct_witness :
    chunkedReadToEnd 2 3 c2dec (3 + 1) 5 ⟨0, 3, [], 0⟩ =
        .ok (List.take 3 (chunksConcat c2dec 0 ((3 + 2 - 1) / 2))) ∧
      chunkedReadToEnd 2 3 c2decBad (3 + 1) 5 ⟨0, 3, [], 0⟩ =
        .error (.badChunkSize (0 + 1) 1 2) := by
  constructor
  · exact c2_chunked_read_correct.1 2 3 c2dec 0 3 5 ⟨0, 3, [], 0⟩ (by decide) rfl
      (by
        intro j hj1 hj2
        have hj2lit : j < 2 := by omega
        interval_cases j
        · exact ⟨[1, 2], rfl, rfl⟩
        · exact ⟨[3, 4], rfl, rfl⟩)
  · exact c2_chunked_read_correct.2 2 3 c2decBad 0 3 5 1 [9] ⟨0, 3, [], 0⟩ (by decide) rfl
      (by
        intro j hj1 hj2
        have hj2lit : j < 1 := by omega
        interval_cases j
        exact ⟨[1, 2], rfl, rfl⟩)
      (by decide) rfl (by decide)
end ReePak
